import Mathlib

/-!
# Verification of karrick/go-atomic-float

Shallow embedding of the repository's three atomic-float containers:

* `atomicFloatCAS2` (cas2.go): stores a `uint64` holding the IEEE-754 bit
  pattern of the value; `Add` is a goto-based CAS retry loop.
* `atomicFloatMutex` (mutex variant): stores a native `float64` guarded by a
  `sync.RWMutex`.
* `atomicFloatCAS` (for-loop CAS variant, source shown in README.md).

A Go `float64` is modelled by its 64-bit IEEE-754 bit pattern (`Float64`
wraps a `Fin (2^64)`); `math.Float64bits` / `math.Float64frombits` are the
two reinterpretation maps between `Float64` and `Fin (2^64)`.  Go's `+` on
`float64` is IEEE-754 binary64 addition with round-to-nearest-ties-to-even;
it is implemented executably below (`fadd64`): every finite double is an
integer multiple of 2^(-1074), so the exact sum of two finite doubles is an
integer scaled by 2^(-1074), which is then rounded back to 53 significant
bits.  IEEE-754 leaves NaN payloads of arithmetic results unspecified, so
NaN results are canonicalised to the quiet NaN pattern 0x7FF8000000000000.
-/

namespace AtomicFloat

/-- `2^64`, the size of the `uint64` bit-pattern space. -/
def W : Nat := 2 ^ 64

instance : NeZero W := ⟨by decide⟩

/-- A Go `float64` value, represented by its IEEE-754 bit pattern. -/
structure Float64 where
  bits64 : Fin W
deriving DecidableEq

/-- `math.Float64bits`: reinterpret a double as its 64-bit pattern. -/
def Float64bits (x : Float64) : Fin W := x.bits64

/-- `math.Float64frombits`: reinterpret a 64-bit pattern as a double. -/
def Float64frombits (u : Fin W) : Float64 := ⟨u⟩

/-- Sign bit (bit 63) of a bit pattern. -/
def signBit (u : Nat) : Nat := u / 2 ^ 63

/-- Biased exponent field (bits 52..62) of a bit pattern. -/
def expField (u : Nat) : Nat := u / 2 ^ 52 % 2 ^ 11

/-- Fraction field (bits 0..51) of a bit pattern. -/
def fracField (u : Nat) : Nat := u % 2 ^ 52

/-- The pattern encodes a NaN: exponent field all ones, fraction nonzero. -/
def isNaNBits (u : Nat) : Bool := expField u == 2047 && fracField u != 0

/-- The pattern encodes ±infinity: exponent field all ones, fraction zero. -/
def isInfBits (u : Nat) : Bool := expField u == 2047 && fracField u == 0

/-- Magnitude of a finite double, as an integer multiple of 2^(-1074):
subnormals (exponent field 0) are `frac * 2^(-1074)`; normals are
`(2^52 + frac) * 2^(e-1075) = (2^52 + frac) * 2^(e-1) * 2^(-1074)`. -/
def magScaled (u : Nat) : Nat :=
  if expField u = 0 then fracField u
  else (2 ^ 52 + fracField u) * 2 ^ (expField u - 1)

/-- Signed value of a finite double, as an integer multiple of 2^(-1074). -/
def sval (u : Nat) : Int :=
  if signBit u = 1 then -(magScaled u : Int) else (magScaled u : Int)

/-- Round a nonnegative magnitude `A` (an integer multiple of 2^(-1074), so
the value is `A * 2^(-1074)`) to the nearest double with ties to even, and
return its bit pattern (sign bit 0); overflow returns +infinity.

For `A < 2^53` the value is exactly representable and its bit pattern is
`A` itself (subnormal if `A < 2^52`, else normal with exponent field 1).
Otherwise let `L = Nat.log2 A` (so `2^L ≤ A < 2^(L+1)`, `L ≥ 53`); the
53-bit significand is `q = A / 2^(L-52)` with remainder `r`, rounded to
nearest with ties to even, and a carry out of the significand bumps the
exponent. -/
def roundMag (A : Nat) : Nat :=
  if A < 2 ^ 53 then A
  else
    let L := Nat.log2 A
    let shift := L - 52
    let q := A / 2 ^ shift
    let r := A % 2 ^ shift
    let half := 2 ^ (shift - 1)
    let q2 := if r < half then q
      else if half < r then q + 1
      else if q % 2 = 0 then q else q + 1
    let p := if q2 = 2 ^ 53 then (2 ^ 52, shift + 1) else (q2, shift)
    if 2045 < p.2 then 2047 * 2 ^ 52 else p.2 * 2 ^ 52 + p.1

/-- The canonical quiet NaN bit pattern, 0x7FF8000000000000. -/
def qNaN : Nat := 2047 * 2 ^ 52 + 2 ^ 51

/-- IEEE-754 binary64 addition on bit patterns (round to nearest, ties to
even): NaN operands and ∞ + (-∞) produce NaN; infinities absorb finite
addends; finite operands are summed exactly as integer multiples of
2^(-1074) and rounded by `roundMag`.  An exact zero sum is +0 unless both
operands are -0 (IEEE-754 §6.3 for roundTiesToEven). -/
def fadd64bits (u v : Nat) : Nat :=
  if isNaNBits u || isNaNBits v then qNaN
  else if isInfBits u then
    if isInfBits v && signBit u ≠ signBit v then qNaN else u
  else if isInfBits v then v
  else
    let S : Int := sval u + sval v
    if S = 0 then
      if signBit u = 1 && signBit v = 1 then 2 ^ 63 else 0
    else
      (if S < 0 then 2 ^ 63 else 0) + roundMag S.natAbs

/-- Go's `+` on `float64`: IEEE-754 binary64 addition, on the wrapped bit
patterns, reduced into the 64-bit space. -/
def fadd64 (x y : Float64) : Float64 :=
  ⟨⟨fadd64bits x.bits64.val y.bits64.val % W, Nat.mod_lt _ (by decide)⟩⟩

/-! ## The bitwise CAS variant of cas2.go (`atomicFloatCAS2`)

Sequential (single-caller) semantics: each method is a function from the
pre-state to its return value and post-state.  In a sequential execution
the `CompareAndSwapUint64` in `Add` always succeeds on the first attempt,
so `Add` runs its loop body exactly once; the retry loop under concurrent
interference is modelled separately by `cas2AddLoop` below. -/

/-- cas2.go: `type atomicFloatCAS2 struct{ u64 uint64 }`. -/
structure atomicFloatCAS2 where
  u64 : Fin W
deriving DecidableEq

/-- cas2.go: `NewAtomicFloatCAS2(initial float64)`. -/
def NewAtomicFloatCAS2 (initial : Float64) : atomicFloatCAS2 :=
  ⟨Float64bits initial⟩

namespace atomicFloatCAS2

/-- cas2.go: `Load` — `math.Float64frombits(atomic.LoadUint64(&a.u64))`. -/
def Load (a : atomicFloatCAS2) : Float64 := Float64frombits a.u64

/-- cas2.go: `Store` — `atomic.StoreUint64(&a.u64, math.Float64bits(new))`. -/
def Store (_a : atomicFloatCAS2) (new : Float64) : atomicFloatCAS2 :=
  ⟨Float64bits new⟩

/-- cas2.go: `Swap` — a single `atomic.SwapUint64`; returns the previous
value and the post-state. -/
def Swap (a : atomicFloatCAS2) (new : Float64) : Float64 × atomicFloatCAS2 :=
  (Float64frombits a.u64, ⟨Float64bits new⟩)

/-- cas2.go: `Add`, sequential semantics — load `oldBits`, compute
`newValue := Float64frombits(oldBits) + delta`, CAS in its bit pattern
(which succeeds at once with no interference), return `newValue`. -/
def Add (a : atomicFloatCAS2) (delta : Float64) : Float64 × atomicFloatCAS2 :=
  let oldBits := a.u64
  let newValue := fadd64 (Float64frombits oldBits) delta
  let newBits := Float64bits newValue
  (newValue, ⟨newBits⟩)

end atomicFloatCAS2

/-- The goto-based retry loop of `atomicFloatCAS2.Add` under concurrent
interference.  The schedule lists, for each loop iteration, the contents of
the shared cell `a.u64` at the two atomic instructions of the body: the
`atomic.LoadUint64` (so the first component is exactly the `oldBits` the
iteration loads) and the `atomic.CompareAndSwapUint64` (the CAS succeeds
iff the second component still equals `oldBits`; on failure the code jumps
back to `loop:` and the next iteration runs).  Returns the installed bit
pattern and the returned `newValue` if some iteration succeeds, and `none`
if the schedule ends with every CAS defeated. -/
def cas2AddLoop (delta : Float64) :
    List (Fin W × Fin W) → Option (Fin W × Float64)
  | [] => none
  | (loadBits, cellAtCas) :: rest =>
    let newValue := fadd64 (Float64frombits loadBits) delta
    let newBits := Float64bits newValue
    if cellAtCas = loadBits then some (newBits, newValue)
    else cas2AddLoop delta rest

/-! ## The for-loop CAS variant shown in README.md (`atomicFloatCAS`) -/

/-- README.md: `type atomicFloatCAS struct{ u64 uint64 }`. -/
structure atomicFloatCAS where
  u64 : Fin W
deriving DecidableEq

/-- README.md: `NewAtomicFloatCAS(initial float64)`. -/
def NewAtomicFloatCAS (initial : Float64) : atomicFloatCAS :=
  ⟨Float64bits initial⟩

namespace atomicFloatCAS

/-- README.md variant `Load`: same single atomic load and reinterpret. -/
def Load (a : atomicFloatCAS) : Float64 := Float64frombits a.u64

/-- README.md variant `Store`. -/
def Store (_a : atomicFloatCAS) (new : Float64) : atomicFloatCAS :=
  ⟨Float64bits new⟩

/-- README.md variant `Swap`. -/
def Swap (a : atomicFloatCAS) (new : Float64) : Float64 × atomicFloatCAS :=
  (Float64frombits a.u64, ⟨Float64bits new⟩)

/-- README.md variant `Add`, sequential semantics: the `for` loop's body
runs once, its CAS succeeding with no interference. -/
def Add (a : atomicFloatCAS) (delta : Float64) : Float64 × atomicFloatCAS :=
  let oldBits := a.u64
  let newValue := fadd64 (Float64frombits oldBits) delta
  let newBits := Float64bits newValue
  (newValue, ⟨newBits⟩)

end atomicFloatCAS

/-- The `for`-loop retry of the README variant's `Add` under interference,
with the same schedule convention as `cas2AddLoop`: each iteration loads
`oldBits` (first component), computes the sum's bit pattern, and attempts
the CAS against the cell contents at that instant (second component),
returning on success and looping on failure. -/
def casAddLoop (delta : Float64) :
    List (Fin W × Fin W) → Option (Fin W × Float64)
  | [] => none
  | (oldBits, cellAtCas) :: rest =>
    let newValue := fadd64 (Float64frombits oldBits) delta
    let newBits := Float64bits newValue
    if cellAtCas = oldBits then some (newBits, newValue)
    else casAddLoop delta rest

/-! ## The locking variant (`atomicFloatMutex`)

Each method's critical section is bracketed by `l.Lock()`/`l.Unlock()`
(or `RLock`/`RUnlock` in `Load`); the lock makes the section indivisible,
so sequentially each method is a function on the guarded `f64` field. -/

/-- Mutex variant: `type atomicFloatMutex struct { f64 float64; l sync.RWMutex }`.
The `sync.RWMutex` has no sequential content and is not part of the state. -/
structure atomicFloatMutex where
  f64 : Float64
deriving DecidableEq

/-- `NewAtomicFloatMutex(initial float64)`. -/
def NewAtomicFloatMutex (initial : Float64) : atomicFloatMutex := ⟨initial⟩

namespace atomicFloatMutex

/-- Mutex variant `Load`: `RLock`; copy `a.f64`; `RUnlock`; return the copy. -/
def Load (a : atomicFloatMutex) : Float64 := a.f64

/-- Mutex variant `Store`: `Lock`; `a.f64 = new`; `Unlock`. -/
def Store (_a : atomicFloatMutex) (new : Float64) : atomicFloatMutex := ⟨new⟩

/-- Mutex variant `Swap`: `Lock`; `old := a.f64`; `a.f64 = new`; `Unlock`;
return `old`. -/
def Swap (a : atomicFloatMutex) (new : Float64) : Float64 × atomicFloatMutex :=
  (a.f64, ⟨new⟩)

/-- Mutex variant `Add`: `Lock`; `a.f64 += delta`; `new := a.f64`;
`Unlock`; return `new`. -/
def Add (a : atomicFloatMutex) (delta : Float64) : Float64 × atomicFloatMutex :=
  let new := fadd64 a.f64 delta
  (new, ⟨new⟩)

end atomicFloatMutex

/-! ## Sequential driver over the shared capability set

The capability interface {Load, Store, Swap, Add} (the `af64` interface of
benchmark_test.go, extended with the two write operations) lets one call
sequence drive either variant.  An operation's observable output is
`some` returned value, or `none` for `Store`, which returns nothing. -/

/-- One call of the shared capability set. -/
inductive FOp
  | load
  | store (v : Float64)
  | swap (v : Float64)
  | add (d : Float64)
deriving DecidableEq

/-- Dispatch one call on the cas2.go variant. -/
def cas2Step (a : atomicFloatCAS2) : FOp → Option Float64 × atomicFloatCAS2
  | .load => (some a.Load, a)
  | .store v => (none, a.Store v)
  | .swap v => (some (a.Swap v).1, (a.Swap v).2)
  | .add d => (some (a.Add d).1, (a.Add d).2)

/-- Dispatch one call on the mutex variant. -/
def mutexStep (a : atomicFloatMutex) : FOp → Option Float64 × atomicFloatMutex
  | .load => (some a.Load, a)
  | .store v => (none, a.Store v)
  | .swap v => (some (a.Swap v).1, (a.Swap v).2)
  | .add d => (some (a.Add d).1, (a.Add d).2)

/-- Run a call sequence on the cas2.go variant, collecting every call's
output and the final state. -/
def cas2Run (a : atomicFloatCAS2) :
    List FOp → List (Option Float64) × atomicFloatCAS2
  | [] => ([], a)
  | op :: ops =>
    let s := cas2Step a op
    let r := cas2Run s.2 ops
    (s.1 :: r.1, r.2)

/-- Run a call sequence on the mutex variant, collecting every call's
output and the final state. -/
def mutexRun (a : atomicFloatMutex) :
    List FOp → List (Option Float64) × atomicFloatMutex
  | [] => ([], a)
  | op :: ops =>
    let s := mutexStep a op
    let r := mutexRun s.2 ops
    (s.1 :: r.1, r.2)

/-- Run a sequence of `Swap` calls on the cas2.go variant, collecting the
returned pre-images and the final state. -/
def cas2Swaps (a : atomicFloatCAS2) :
    List Float64 → List Float64 × atomicFloatCAS2
  | [] => ([], a)
  | v :: vs =>
    let s := a.Swap v
    let r := cas2Swaps s.2 vs
    (s.1 :: r.1, r.2)

/-- Run a sequence of `Swap` calls on the mutex variant, collecting the
returned pre-images and the final state. -/
def mutexSwaps (a : atomicFloatMutex) :
    List Float64 → List Float64 × atomicFloatMutex
  | [] => ([], a)
  | v :: vs =>
    let s := a.Swap v
    let r := mutexSwaps s.2 vs
    (s.1 :: r.1, r.2)

/-- `n` successive `Add delta` calls on the cas2.go variant (the work the
harness `runQ` distributes over its adder goroutines, executed
sequentially). -/
def cas2AddN (delta : Float64) (a : atomicFloatCAS2) : Nat → atomicFloatCAS2
  | 0 => a
  | n + 1 => cas2AddN delta (a.Add delta).2 n

/-- `n` successive `Add delta` calls on the mutex variant. -/
def mutexAddN (delta : Float64) (a : atomicFloatMutex) : Nat → atomicFloatMutex
  | 0 => a
  | n + 1 => mutexAddN delta (a.Add delta).2 n

/-! ## Encoding of integers as doubles

Used to state the accumulation claims: `encNat n` is the IEEE-754 double
denoting the nonnegative integer `n`, exact whenever `n` is exactly
representable (all `n ≤ 2^53` in particular). -/

/-- Bit pattern of the nonnegative integer `n` as a double: 0 encodes as
+0; a positive `n` with `L = Nat.log2 n` (so `2^L ≤ n < 2^(L+1)`) has
biased exponent `L + 1023` and 52-bit fraction obtained by aligning `n` to
a 53-bit significand (exact iff `n` is representable). -/
def encNatBits (n : Nat) : Nat :=
  if n = 0 then 0
  else
    let L := Nat.log2 n
    if L ≤ 52 then (L + 1023) * 2 ^ 52 + (n * 2 ^ (52 - L) - 2 ^ 52)
    else (L + 1023) * 2 ^ 52 + (n / 2 ^ (L - 52) - 2 ^ 52)

/-- The double denoting the nonnegative integer `n`. -/
def encNat (n : Nat) : Float64 :=
  ⟨⟨encNatBits n % W, Nat.mod_lt _ (by decide)⟩⟩

/-- `n` is exactly representable as a double: decoding its encoding gives
back the value `n` (as an integer multiple of 2^(-1074)). -/
def exactRepr (n : Nat) : Prop :=
  sval (encNat n).bits64.val = (n : Int) * 2 ^ 1074

instance (n : Nat) : Decidable (exactRepr n) := by
  unfold exactRepr; infer_instance

/-- The double `x` is a NaN. -/
def isNaN64 (x : Float64) : Bool := isNaNBits x.bits64.val

/-! ## Fine-grained interleaved semantics of the cas2.go variant

Each of `Load`, `Store` and `Swap` is a single atomic instruction on the
shared `u64` cell.  `Add` touches the cell at two separate instructions per
loop iteration — the `atomic.LoadUint64` and the `atomic.CompareAndSwapUint64`
— with an arbitrary interleaving of other threads in between, so a thread
running `Add` is modelled with an explicit program counter.  A
configuration is the shared cell plus each thread's local state; a
schedule (list of thread indices) resolves the interleaving one atomic
instruction at a time. -/

/-- Local state of a thread performing one call on the shared instance. -/
inductive TCode
  | loadPending
  | storePending (v : Float64)
  | swapPending (v : Float64)
  /-- `Add delta`, program counter at `loop:` before `atomic.LoadUint64`. -/
  | addPending (delta : Float64)
  /-- `Add delta` after loading `oldBits`, before its CAS. -/
  | addLoaded (delta : Float64) (oldBits : Fin W)
  /-- The call returned `ret` (`none` for `Store`, which returns nothing). -/
  | done (ret : Option Float64)
deriving DecidableEq

/-- The initial thread state for one call. -/
def FOp.init : FOp → TCode
  | .load => .loadPending
  | .store v => .storePending v
  | .swap v => .swapPending v
  | .add d => .addPending d

/-- One atomic instruction of a thread against the shared cell: its new
local state and the new cell contents.  `Load`/`Store`/`Swap` finish in
one instruction; `Add` first loads the cell, then CASes — on success it
finishes, on failure it jumps back to `loop:`.  A finished thread only
stutters. -/
def stepThread (cell : Fin W) : TCode → TCode × Fin W
  | .loadPending => (.done (some (Float64frombits cell)), cell)
  | .storePending v => (.done none, Float64bits v)
  | .swapPending v => (.done (some (Float64frombits cell)), Float64bits v)
  | .addPending delta => (.addLoaded delta cell, cell)
  | .addLoaded delta oldBits =>
    let newValue := fadd64 (Float64frombits oldBits) delta
    let newBits := Float64bits newValue
    if cell = oldBits then (.done (some newValue), newBits)
    else (.addPending delta, cell)
  | .done r => (.done r, cell)

/-- Shared cell plus all thread-local states. -/
structure Config where
  cell : Fin W
  threads : List TCode
deriving DecidableEq

/-- Let thread `i` execute its next atomic instruction; scheduling an
absent or finished thread changes nothing. -/
def stepConfig (c : Config) (i : Nat) : Config :=
  match c.threads.get? i with
  | none => c
  | some (.done _) => c
  | some t =>
    let s := stepThread c.cell t
    ⟨s.2, c.threads.set i s.1⟩

/-- Run a schedule: each entry names the thread that executes its next
atomic instruction. -/
def execConfig (c : Config) : List Nat → Config
  | [] => c
  | i :: is => execConfig (stepConfig c i) is

/-- The configuration in which thread `i` is about to begin call `ops[i]`
on a fresh instance holding `v0`. -/
def initConfig (v0 : Float64) (ops : List FOp) : Config :=
  ⟨Float64bits v0, ops.map FOp.init⟩

/-- Replay a claimed linearization: each entry `(i, r)` asserts that call
`ops[i]`, run sequentially (by `cas2Step`) at that point, returns `r`.
Produces the final cell contents, or `none` if an index is out of range or
a recorded return value disagrees with the sequential execution. -/
def seqReplay (ops : List FOp) : Fin W → List (Nat × Option Float64) → Option (Fin W)
  | cell, [] => some cell
  | cell, (i, r) :: ev =>
    match ops.get? i with
    | none => none
    | some op =>
      let s := cas2Step ⟨cell⟩ op
      if s.1 = r then seqReplay ops s.2.u64 ev else none

/-- The thread-local state `t` is a legal in-flight state of call `op`
that has not yet taken effect: either the initial state of `op`, or an
`Add` that has loaded some `oldBits` but whose CAS has not yet
succeeded. -/
def agreeStart (op : FOp) (t : TCode) : Prop :=
  t = FOp.init op ∨ ∃ d oldBits, op = FOp.add d ∧ t = TCode.addLoaded d oldBits

/-- Simulation invariant for the linearizability proof: `ev` lists, in
order, the calls that have already taken effect (each one with its return
value); replaying `ev` sequentially reproduces the current cell; and every
thread is either finished, with its index/return recorded exactly once in
`ev`, or still in flight and absent from `ev`. -/
def Inv (ops : List FOp) (v0 : Float64) (c : Config)
    (ev : List (Nat × Option Float64)) : Prop :=
  c.threads.length = ops.length ∧
  seqReplay ops (Float64bits v0) ev = some c.cell ∧
  (ev.map Prod.fst).Nodup ∧
  (∀ e ∈ ev, e.1 < ops.length) ∧
  ∀ i op, ops.get? i = some op →
    ∃ t, c.threads.get? i = some t ∧
      ((∃ r, t = TCode.done r ∧ (i, r) ∈ ev) ∨
        (agreeStart op t ∧ i ∉ ev.map Prod.fst))

/-! # Theorems -/

theorem Float64.frombits_bits (x : Float64) : Float64frombits (Float64bits x) = x := rfl

theorem Float64.bits_frombits (u : Fin W) : Float64bits (Float64frombits u) = u := rfl

/-- C6: the float64/uint64 bit reinterpretation is a lossless total
bijection over the whole double space (finite, infinite and NaN patterns):
`Float64frombits (Float64bits x) = x` bit-identically for every double `x`
(NaN payloads and the sign of zero included, since `x` is its bit pattern)
and `Float64bits (Float64frombits u) = u` for every 64-bit integer `u`;
consequently `Load` right after `Store x`, or on `NewAtomicFloatCAS2 x`,
returns exactly `x`. -/
theorem bits_roundtrip_bijection :
    (∀ x : Float64, Float64frombits (Float64bits x) = x) ∧
    (∀ u : Fin W, Float64bits (Float64frombits u) = u) ∧
    (∀ (a : atomicFloatCAS2) (x : Float64), (a.Store x).Load = x) ∧
    (∀ x : Float64, (NewAtomicFloatCAS2 x).Load = x) :=
  ⟨fun _ => rfl, fun _ => rfl, fun _ _ => rfl, fun _ => rfl⟩

/-- C4: in both variants, `Swap v` returns the logical value held
immediately before the call (`Load` of the pre-state) and leaves the
container holding exactly `v` — for the bitwise variant the stored integer
becomes `Float64bits v`. -/
theorem swap_returns_preimage :
    (∀ (a : atomicFloatCAS2) (v : Float64),
      (a.Swap v).1 = a.Load ∧ ((a.Swap v).2).u64 = Float64bits v) ∧
    (∀ (m : atomicFloatMutex) (v : Float64),
      (m.Swap v).1 = m.Load ∧ ((m.Swap v).2).f64 = v) :=
  ⟨fun _ _ => ⟨rfl, rfl⟩, fun _ _ => ⟨rfl, rfl⟩⟩

/-- C8: `Load` is pure in both variants: as a step of the sequential
driver it returns the current value and leaves the stored state (the
`u64` field, resp. the `f64` field) unchanged, and two consecutive `Load`
calls with no interleaved write return the same value. -/
theorem load_pure :
    (∀ a : atomicFloatCAS2, cas2Step a .load = (some a.Load, a)) ∧
    (∀ m : atomicFloatMutex, mutexStep m .load = (some m.Load, m)) ∧
    (∀ a : atomicFloatCAS2, cas2Run a [.load, .load] = ([some a.Load, some a.Load], a)) ∧
    (∀ m : atomicFloatMutex, mutexRun m [.load, .load] = ([some m.Load, some m.Load], m)) :=
  ⟨fun _ => rfl, fun _ => rfl, fun _ => rfl, fun _ => rfl⟩

/-- C10: the README's for-loop CAS variant and cas2.go's goto-based CAS
variant compute the same functions: on any state (same stored pattern
`u`), `Load`, `Store`, `Swap` and `Add` produce identical return values
and post-states, the two retry loops agree on every interference
schedule, and the constructors agree. -/
theorem cas_cas2_equiv :
    (∀ u : Fin W, atomicFloatCAS.Load ⟨u⟩ = atomicFloatCAS2.Load ⟨u⟩) ∧
    (∀ (u : Fin W) (v : Float64),
      (atomicFloatCAS.Store ⟨u⟩ v).u64 = (atomicFloatCAS2.Store ⟨u⟩ v).u64) ∧
    (∀ (u : Fin W) (v : Float64),
      (atomicFloatCAS.Swap ⟨u⟩ v).1 = (atomicFloatCAS2.Swap ⟨u⟩ v).1 ∧
      (atomicFloatCAS.Swap ⟨u⟩ v).2.u64 = (atomicFloatCAS2.Swap ⟨u⟩ v).2.u64) ∧
    (∀ (u : Fin W) (d : Float64),
      (atomicFloatCAS.Add ⟨u⟩ d).1 = (atomicFloatCAS2.Add ⟨u⟩ d).1 ∧
      (atomicFloatCAS.Add ⟨u⟩ d).2.u64 = (atomicFloatCAS2.Add ⟨u⟩ d).2.u64) ∧
    (∀ (d : Float64) (sched : List (Fin W × Fin W)),
      casAddLoop d sched = cas2AddLoop d sched) ∧
    (∀ x : Float64, (NewAtomicFloatCAS x).u64 = (NewAtomicFloatCAS2 x).u64) := by
  refine ⟨fun _ => rfl, fun _ _ => rfl, fun _ _ => ⟨rfl, rfl⟩, fun _ _ => ⟨rfl, rfl⟩,
    ?_, fun _ => rfl⟩
  intro d sched
  induction sched with
  | nil => rfl
  | cons p rest ih =>
    obtain ⟨l, c⟩ := p
    by_cases hc : c = l <;> simp [casAddLoop, cas2AddLoop, hc, ih]

/-- Sequentially swapping in `vs` one by one: the returned pre-images
followed by the final `Load` are exactly the initial value followed by
`vs` (cas2.go variant). -/
theorem cas2Swaps_chain (vs : List Float64) : ∀ a : atomicFloatCAS2,
    (cas2Swaps a vs).1 ++ [(cas2Swaps a vs).2.Load] = a.Load :: vs := by
  induction vs with
  | nil => intro _; rfl
  | cons v vs ih =>
    intro a
    show (a.Swap v).1 ::
        ((cas2Swaps (a.Swap v).2 vs).1 ++ [(cas2Swaps (a.Swap v).2 vs).2.Load]) =
      a.Load :: v :: vs
    rw [ih]
    rfl

/-- Sequentially swapping in `vs` one by one: mutex variant. -/
theorem mutexSwaps_chain (vs : List Float64) : ∀ m : atomicFloatMutex,
    (mutexSwaps m vs).1 ++ [(mutexSwaps m vs).2.Load] = m.Load :: vs := by
  induction vs with
  | nil => intro _; rfl
  | cons v vs ih =>
    intro m
    show (m.Swap v).1 ::
        ((mutexSwaps (m.Swap v).2 vs).1 ++ [(mutexSwaps (m.Swap v).2 vs).2.Load]) =
      m.Load :: v :: vs
    rw [ih]
    rfl

/-- C5: `Swap` conserves values as a multiset, in both variants: starting
from `v0`, after the swap sequence `vs` the multiset of returned
pre-images together with the final `Load` equals `{v0} ∪ vs` — no value
duplicated or dropped. -/
theorem swap_conserves_multiset (v0 : Float64) (vs : List Float64) :
    (((cas2Swaps (NewAtomicFloatCAS2 v0) vs).1 : Multiset Float64) +
        {(cas2Swaps (NewAtomicFloatCAS2 v0) vs).2.Load} =
      v0 ::ₘ (vs : Multiset Float64)) ∧
    (((mutexSwaps (NewAtomicFloatMutex v0) vs).1 : Multiset Float64) +
        {(mutexSwaps (NewAtomicFloatMutex v0) vs).2.Load} =
      v0 ::ₘ (vs : Multiset Float64)) := by
  constructor
  · have h := cas2Swaps_chain vs (NewAtomicFloatCAS2 v0)
    rw [← Multiset.coe_singleton, Multiset.coe_add, h, ← Multiset.cons_coe]
    rfl
  · have h := mutexSwaps_chain vs (NewAtomicFloatMutex v0)
    rw [← Multiset.coe_singleton, Multiset.coe_add, h, ← Multiset.cons_coe]
    rfl

/-- One driver step preserves the simulation between the two variants:
if the mutex field holds the reinterpretation of the bitwise cell, the
outputs agree and the relation persists. -/
theorem step_equiv (a : atomicFloatCAS2) (m : atomicFloatMutex)
    (h : m.f64 = Float64frombits a.u64) (op : FOp) :
    (mutexStep m op).1 = (cas2Step a op).1 ∧
    (mutexStep m op).2.f64 = Float64frombits (cas2Step a op).2.u64 := by
  cases op <;>
    simp [mutexStep, cas2Step, atomicFloatCAS2.Load, atomicFloatMutex.Load,
      atomicFloatCAS2.Store, atomicFloatMutex.Store, atomicFloatCAS2.Swap,
      atomicFloatMutex.Swap, atomicFloatCAS2.Add, atomicFloatMutex.Add,
      Float64frombits, Float64bits, h]

/-- Driving both variants with the same call sequence from related states
yields identical outputs and related final states. -/
theorem run_equiv (ops : List FOp) : ∀ (a : atomicFloatCAS2) (m : atomicFloatMutex),
    m.f64 = Float64frombits a.u64 →
    (mutexRun m ops).1 = (cas2Run a ops).1 ∧
    (mutexRun m ops).2.f64 = Float64frombits (cas2Run a ops).2.u64 := by
  induction ops with
  | nil => exact fun a m h => ⟨rfl, h⟩
  | cons op ops ih =>
    intro a m h
    obtain ⟨h1, h2⟩ := step_equiv a m h op
    obtain ⟨ih1, ih2⟩ := ih (cas2Step a op).2 (mutexStep m op).2 h2
    exact ⟨by simp [mutexRun, cas2Run, h1, ih1], by simpa [mutexRun, cas2Run] using ih2⟩

/-- C2: the bitwise and the locking variant are extensionally equivalent:
driven by any finite sequence of Load/Store/Swap/Add calls from the same
initial value, they return identical values call by call and end with an
identical final `Load`; the mutex field always equals `Float64frombits`
of the bitwise variant's stored `uint64`. -/
theorem variants_extensional_equiv (x : Float64) (ops : List FOp) :
    (mutexRun (NewAtomicFloatMutex x) ops).1 = (cas2Run (NewAtomicFloatCAS2 x) ops).1 ∧
    (mutexRun (NewAtomicFloatMutex x) ops).2.Load =
      (cas2Run (NewAtomicFloatCAS2 x) ops).2.Load ∧
    (mutexRun (NewAtomicFloatMutex x) ops).2.f64 =
      Float64frombits (cas2Run (NewAtomicFloatCAS2 x) ops).2.u64 := by
  obtain ⟨h1, h2⟩ := run_equiv ops (NewAtomicFloatCAS2 x) (NewAtomicFloatMutex x) rfl
  exact ⟨h1, h2, h2⟩

/-- C1: the goto-based CAS retry loop of `atomicFloatCAS2.Add` satisfies
the specified algorithm and postcondition: whenever the loop completes
under an interference schedule, there is a decisive iteration, every
earlier iteration's CAS was defeated (and retried from a fresh load), the
decisive iteration's CAS found the cell still equal to its loaded
`oldBits`, the installed pattern is `Float64bits (Float64frombits oldBits + delta)`,
and the returned value is the sum, i.e. `Float64frombits` of the stored
pattern. -/
theorem cas2Add_casPostcondition (delta : Float64) (sched : List (Fin W × Fin W))
    (finalBits : Fin W) (ret : Float64)
    (h : cas2AddLoop delta sched = some (finalBits, ret)) :
    ∃ (k : Nat) (hk : k < sched.length),
      (∀ p ∈ sched.take k, p.2 ≠ p.1) ∧
      (sched.get ⟨k, hk⟩).2 = (sched.get ⟨k, hk⟩).1 ∧
      ret = fadd64 (Float64frombits (sched.get ⟨k, hk⟩).1) delta ∧
      finalBits = Float64bits ret ∧
      ret = Float64frombits finalBits := by
  induction sched with
  | nil => exact absurd h (by simp [cas2AddLoop])
  | cons p rest ih =>
    obtain ⟨l, c⟩ := p
    by_cases hc : c = l
    · refine ⟨0, by simp, by simp, hc, ?_⟩
      simp only [cas2AddLoop, if_pos hc, Option.some.injEq, Prod.mk.injEq] at h
      obtain ⟨hb, hr⟩ := h
      subst hb hr
      exact ⟨rfl, rfl, rfl⟩
    · simp only [cas2AddLoop, if_neg hc] at h
      obtain ⟨k, hk, htake, hcas, hret, hbits, hrf⟩ := ih h
      refine ⟨k + 1, by simpa using hk, ?_, by simpa using hcas, by simpa using hret,
        hbits, hrf⟩
      intro q hq
      rcases List.mem_cons.mp (by simpa using hq) with hq0 | hq1
      · subst hq0; exact hc
      · exact htake q hq1

/-- Witness for C1 at a concrete schedule: the first iteration's CAS is
defeated (cell moved from 1 to 2), the second succeeds with `oldBits = 0`
and `delta = +0.0`, installing the bit pattern of `0.0 + 0.0` and
returning it. -/
theorem cas2Add_casPostcondition_witness :
    cas2AddLoop (Float64frombits 0) [((1 : Fin W), (2 : Fin W)), ((0 : Fin W), (0 : Fin W))]
        = some ((0 : Fin W), Float64frombits 0) ∧
    ∃ (k : Nat)
      (hk : k <
        ([((1 : Fin W), (2 : Fin W)), ((0 : Fin W), (0 : Fin W))] :
          List (Fin W × Fin W)).length),
      (∀ p ∈ ([((1 : Fin W), (2 : Fin W)), ((0 : Fin W), (0 : Fin W))] :
          List (Fin W × Fin W)).take k, p.2 ≠ p.1) ∧
      (([((1 : Fin W), (2 : Fin W)), ((0 : Fin W), (0 : Fin W))] :
          List (Fin W × Fin W)).get ⟨k, hk⟩).2 =
        (([((1 : Fin W), (2 : Fin W)), ((0 : Fin W), (0 : Fin W))] :
          List (Fin W × Fin W)).get ⟨k, hk⟩).1 ∧
      Float64frombits 0 = fadd64 (Float64frombits
        (([((1 : Fin W), (2 : Fin W)), ((0 : Fin W), (0 : Fin W))] :
          List (Fin W × Fin W)).get ⟨k, hk⟩).1) (Float64frombits 0) ∧
      (0 : Fin W) = Float64bits (Float64frombits 0) ∧
      Float64frombits 0 = Float64frombits (0 : Fin W) :=
  ⟨by decide, cas2Add_casPostcondition (Float64frombits 0) _ _ _ (by decide)⟩

/-- A NaN operand makes the IEEE-754 sum NaN. -/
theorem fadd64_nan (x y : Float64) (h : (isNaN64 x || isNaN64 y) = true) :
    isNaN64 (fadd64 x y) = true := by
  have hq : isNaNBits (qNaN % W) = true := by decide
  simp only [isNaN64, fadd64] at *
  rw [fadd64bits, if_pos h]
  exact hq

/-- C7: all four operations of both variants are total functions over the
full double space: every bit pattern — finite, infinite or NaN — is an
accepted input and every call produces a result (no `Option`/error in any
return type, no sentinel), and `Add` propagates NaN: a NaN stored value or
a NaN delta makes the returned sum NaN. -/
theorem ops_total_nan :
    (∀ (a : atomicFloatCAS2) (v d : Float64),
      (∃ r, a.Load = r) ∧ (∃ s, a.Store v = s) ∧ (∃ p, a.Swap v = p) ∧
        ∃ p, a.Add d = p) ∧
    (∀ (m : atomicFloatMutex) (v d : Float64),
      (∃ r, m.Load = r) ∧ (∃ s, m.Store v = s) ∧ (∃ p, m.Swap v = p) ∧
        ∃ p, m.Add d = p) ∧
    (∀ (a : atomicFloatCAS2) (d : Float64),
      (isNaN64 a.Load || isNaN64 d) = true → isNaN64 (a.Add d).1 = true) ∧
    (∀ (m : atomicFloatMutex) (d : Float64),
      (isNaN64 m.Load || isNaN64 d) = true → isNaN64 (m.Add d).1 = true) := by
  refine ⟨fun _ _ _ => ⟨⟨_, rfl⟩, ⟨_, rfl⟩, ⟨_, rfl⟩, ⟨_, rfl⟩⟩,
    fun _ _ _ => ⟨⟨_, rfl⟩, ⟨_, rfl⟩, ⟨_, rfl⟩, ⟨_, rfl⟩⟩, ?_, ?_⟩
  · exact fun a d h => fadd64_nan _ _ h
  · exact fun m d h => fadd64_nan _ _ h

/-- Witness for C7: adding `+0.0` to a container storing the quiet NaN
returns a NaN. -/
theorem ops_total_nan_witness :
    isNaN64 ((atomicFloatCAS2.Add ⟨(⟨qNaN, by decide⟩ : Fin W)⟩ (Float64frombits 0)).1)
      = true :=
  ops_total_nan.2.2.1 ⟨(⟨qNaN, by decide⟩ : Fin W)⟩ (Float64frombits 0) (by decide)

/-! ## Arithmetic facts about the integer encoding and IEEE rounding -/

/-- `Nat.log2` is determined by its dyadic window. -/
theorem log2_eq_of {L m : Nat} (h1 : 2 ^ L ≤ m) (h2 : m < 2 ^ (L + 1)) :
    Nat.log2 m = L := by
  have hm : m ≠ 0 := (lt_of_lt_of_le (pow_pos (by norm_num) L) h1).ne'
  have ha : L ≤ Nat.log2 m := (Nat.le_log2 hm).2 h1
  have hb : Nat.log2 m < L + 1 := (Nat.log2_lt hm).2 h2
  omega

/-- Field extraction from a packed pattern `e * 2^52 + m` with sign bit 0. -/
theorem pack_fields {e m : Nat} (he : e < 2048) (hm : m < 2 ^ 52) :
    expField (e * 2 ^ 52 + m) = e ∧ fracField (e * 2 ^ 52 + m) = m ∧
      signBit (e * 2 ^ 52 + m) = 0 := by
  have h52 : (2:Nat) ^ 52 = 4503599627370496 := by norm_num
  have h11 : (2:Nat) ^ 11 = 2048 := by norm_num
  have h63 : (2:Nat) ^ 63 = 9223372036854775808 := by norm_num
  refine ⟨?_, ?_, ?_⟩
  · unfold expField
    rw [show e * 2 ^ 52 + m = 2 ^ 52 * e + m by ring,
      Nat.mul_add_div (by positivity), Nat.div_eq_of_lt hm, Nat.add_zero, h11]
    omega
  · unfold fracField
    rw [show e * 2 ^ 52 + m = 2 ^ 52 * e + m by ring, Nat.mul_add_mod,
      Nat.mod_eq_of_lt hm]
  · unfold signBit
    apply Nat.div_eq_of_lt
    omega

/-- Unfolding of `encNatBits` for nonzero input. -/
theorem encNatBits_ne {n : Nat} (h : n ≠ 0) :
    encNatBits n =
      if Nat.log2 n ≤ 52 then
        (Nat.log2 n + 1023) * 2 ^ 52 + (n * 2 ^ (52 - Nat.log2 n) - 2 ^ 52)
      else (Nat.log2 n + 1023) * 2 ^ 52 + (n / 2 ^ (Nat.log2 n - 52) - 2 ^ 52) := by
  rw [encNatBits, if_neg h]

/-- The closed form of `encNatBits` on the exact range `1 ≤ n < 2^53`. -/
theorem encNatBits_closed {n : Nat} (h1 : n ≠ 0) (hL : Nat.log2 n ≤ 52) :
    encNatBits n =
      (Nat.log2 n + 1023) * 2 ^ 52 + (n * 2 ^ (52 - Nat.log2 n) - 2 ^ 52) := by
  rw [encNatBits_ne h1, if_pos hL]

set_option maxRecDepth 4000 in
/-- `encNatBits` at the top of the exact range. -/
theorem encNatBits_pow53 : encNatBits (2 ^ 53) = 1076 * 2 ^ 52 := by
  have hlog : Nat.log2 (2 ^ 53) = 53 := Nat.log2_two_pow
  rw [encNatBits_ne (by positivity), hlog]
  norm_num

/-- Aligning `1 ≤ n < 2^53` to a 53-bit significand lands in `[2^52, 2^53)`. -/
theorem sig_window {n : Nat} (h1 : 1 ≤ n) (h2 : n < 2 ^ 53) :
    Nat.log2 n ≤ 52 ∧ 2 ^ 52 ≤ n * 2 ^ (52 - Nat.log2 n) ∧
      n * 2 ^ (52 - Nat.log2 n) < 2 ^ 53 := by
  set L := Nat.log2 n with hLdef
  have hn0 : n ≠ 0 := by omega
  have hlow : 2 ^ L ≤ n := Nat.log2_self_le hn0
  have hhigh : n < 2 ^ (L + 1) := Nat.lt_log2_self
  have hL52 : L ≤ 52 := by
    by_contra hc
    push_neg at hc
    have : (2:Nat) ^ 53 ≤ 2 ^ L := Nat.pow_le_pow_right (by norm_num) (by omega)
    omega
  refine ⟨hL52, ?_, ?_⟩
  · calc (2:Nat) ^ 52 = 2 ^ L * 2 ^ (52 - L) := by
          rw [← pow_add]
          congr 1
          omega
      _ ≤ n * 2 ^ (52 - L) := Nat.mul_le_mul_right _ hlow
  · calc n * 2 ^ (52 - L) < 2 ^ (L + 1) * 2 ^ (52 - L) :=
          Nat.mul_lt_mul_of_lt_of_le hhigh (le_refl _) (by positivity)
      _ = 2 ^ 53 := by
          rw [← pow_add]
          congr 1
          omega

/-- A pattern whose exponent field is not all ones is neither NaN nor
infinity. -/
theorem finite_of_exp_ne {u : Nat} (h : expField u ≠ 2047) :
    isNaNBits u = false ∧ isInfBits u = false := by
  have hb : (expField u == 2047) = false := beq_eq_false_iff_ne.mpr h
  unfold isNaNBits isInfBits
  rw [hb, Bool.false_and, Bool.false_and]
  exact ⟨rfl, rfl⟩

set_option maxRecDepth 8000 in
/-- On the exact range `n ≤ 2^53`, the encoding of `n` is finite (neither
NaN nor infinity), decodes to the value `n` (scaled by 2^1074), and the
pattern stays below 2^63 (sign bit 0). -/
theorem encNat_finite {n : Nat} (h2 : n ≤ 2 ^ 53) :
    isNaNBits (encNatBits n) = false ∧ isInfBits (encNatBits n) = false ∧
      sval (encNatBits n) = (n : Int) * 2 ^ 1074 ∧ encNatBits n < 2 ^ 63 := by
  rcases Nat.eq_zero_or_pos n with rfl | hpos
  · obtain ⟨hn1, hn2⟩ := finite_of_exp_ne (u := encNatBits 0) (by decide)
    refine ⟨hn1, hn2, ?_, by decide⟩
    show sval 0 = ((0 : Nat) : Int) * 2 ^ 1074
    norm_num [sval, signBit, magScaled, expField, fracField]
  rcases eq_or_lt_of_le h2 with rfl | hlt
  · rw [encNatBits_pow53]
    obtain ⟨hn1, hn2⟩ := finite_of_exp_ne (u := 1076 * 2 ^ 52) (by decide)
    refine ⟨hn1, hn2, ?_, by decide⟩
    have hsg : signBit (1076 * 2 ^ 52) = 0 := by decide
    have hEx : expField (1076 * 2 ^ 52) = 1076 := by decide
    have hFr : fracField (1076 * 2 ^ 52) = 0 := by decide
    unfold sval magScaled
    rw [hsg, hEx, hFr, if_neg (by omega), if_neg (by omega)]
    push_cast
    norm_num
  obtain ⟨hL52, hlo, hhi⟩ := sig_window hpos hlt
  have hclosed := encNatBits_closed (by omega) hL52
  set L := Nat.log2 n with hLdef
  set t := n * 2 ^ (52 - L) with htdef
  have hm : t - 2 ^ 52 < 2 ^ 52 := by omega
  obtain ⟨hE, hF, hS⟩ := pack_fields (e := L + 1023) (m := t - 2 ^ 52) (by omega) hm
  have hmag : magScaled ((L + 1023) * 2 ^ 52 + (t - 2 ^ 52)) = n * 2 ^ 1074 := by
    unfold magScaled
    rw [hE, hF, if_neg (by omega), show 2 ^ 52 + (t - 2 ^ 52) = t by omega,
      show L + 1023 - 1 = L + 1022 by omega, htdef, mul_assoc, ← pow_add,
      show 52 - L + (L + 1022) = 1074 by omega]
  rw [hclosed]
  have hne : expField ((L + 1023) * 2 ^ 52 + (t - 2 ^ 52)) ≠ 2047 := by
    rw [hE]
    omega
  obtain ⟨hn1, hn2⟩ := finite_of_exp_ne hne
  refine ⟨hn1, hn2, ?_, by omega⟩
  unfold sval
  rw [hS, if_neg (by omega), hmag]
  push_cast
  ring

/-- For `n ≤ 2^53` the wrapped `Fin` value of `encNat n` is `encNatBits n`
(no reduction mod 2^64 occurs). -/
theorem encNat_val {n : Nat} (h : n ≤ 2 ^ 53) :
    (encNat n).bits64.val = encNatBits n := by
  have hb := (encNat_finite h).2.2.2
  show encNatBits n % W = encNatBits n
  have hW : W = 2 ^ 64 := rfl
  exact Nat.mod_eq_of_lt (by omega)

/-- Rounding an exactly-representable magnitude `s * 2^k` with a 53-bit
significand `s` is the identity: the result packs exponent `k` with
significand `s`. -/
theorem roundMag_sig (s k : Nat) (hs : 2 ^ 52 ≤ s) (hs' : s < 2 ^ 53)
    (hk : k ≤ 2045) : roundMag (s * 2 ^ k) = k * 2 ^ 52 + s := by
  rcases Nat.eq_zero_or_pos k with rfl | hkpos
  · unfold roundMag
    rw [pow_zero, mul_one, if_pos hs']
    omega
  · have h2k : (2:Nat) ≤ 2 ^ k := by
      calc (2:Nat) = 2 ^ 1 := by norm_num
        _ ≤ 2 ^ k := Nat.pow_le_pow_right (by norm_num) hkpos
    have hA : ¬ s * 2 ^ k < 2 ^ 53 := by
      push_neg
      calc (2:Nat) ^ 53 = 2 ^ 52 * 2 := by norm_num
        _ ≤ s * 2 ^ k := Nat.mul_le_mul hs h2k
    have hlog : Nat.log2 (s * 2 ^ k) = 52 + k := by
      apply log2_eq_of
      · rw [pow_add]
        exact Nat.mul_le_mul_right _ hs
      · calc s * 2 ^ k < 2 ^ 53 * 2 ^ k :=
            Nat.mul_lt_mul_of_lt_of_le hs' (le_refl _) (by positivity)
          _ = 2 ^ (52 + k + 1) := by
            rw [← pow_add]
            congr 1
            omega
    simp only [roundMag, if_neg hA, hlog]
    have e1 : 52 + k - 52 = k := by omega
    rw [e1]
    rw [Nat.mul_div_cancel s (Nat.pos_pow_of_pos k (by norm_num))]
    rw [Nat.mul_mod_left]
    rw [if_pos (Nat.pos_pow_of_pos (k - 1) (by norm_num))]
    rw [if_neg (Nat.ne_of_lt hs')]
    rw [if_neg (by omega : ¬ 2045 < k)]

set_option maxRecDepth 8000 in
/-- IEEE rounding is the identity on integers of the exact range: for
`1 ≤ n ≤ 2^53` the magnitude `n * 2^1074` (the value `n`) rounds to the
canonical encoding of `n`. -/
theorem roundMag_exact {n : Nat} (h1 : 1 ≤ n) (h2 : n ≤ 2 ^ 53) :
    roundMag (n * 2 ^ 1074) = encNatBits n := by
  rcases eq_or_lt_of_le h2 with rfl | hlt
  · have hfact : (2:Nat) ^ 53 * 2 ^ 1074 = 2 ^ 52 * 2 ^ 1075 := by
      rw [← pow_add, ← pow_add]
    rw [hfact, roundMag_sig (2 ^ 52) 1075 (le_refl _) (by norm_num) (by norm_num),
      encNatBits_pow53]
    ring
  · obtain ⟨hL52, hlo, hhi⟩ := sig_window h1 hlt
    have hfact : n * 2 ^ 1074 =
        (n * 2 ^ (52 - Nat.log2 n)) * 2 ^ (Nat.log2 n + 1022) := by
      rw [mul_assoc, ← pow_add]
      congr 2
      omega
    rw [hfact, roundMag_sig _ _ hlo hhi (by omega), encNatBits_closed (by omega) hL52]
    generalize n * 2 ^ (52 - Nat.log2 n) = t at hlo ⊢
    generalize Nat.log2 n = L at hL52 ⊢
    omega

/-- Two doubles with the same underlying bit value are equal. -/
theorem Float64.val_inj {x y : Float64} (h : x.bits64.val = y.bits64.val) :
    x = y := by
  cases x
  cases y
  congr 1
  exact Fin.ext h

set_option maxRecDepth 8000 in
/-- Exact addition on the integer range: adding the encodings of `m` and
`n` with `1 ≤ m + n ≤ 2^53` yields the encoding of `m + n`. -/
theorem fadd64bits_encNat_step {m n : Nat} (hm : m ≤ 2 ^ 53) (hn : n ≤ 2 ^ 53)
    (hpos : 1 ≤ m + n) (hsum : m + n ≤ 2 ^ 53) :
    fadd64bits (encNatBits m) (encNatBits n) = encNatBits (m + n) := by
  obtain ⟨hN1, hI1, hV1, hB1⟩ := encNat_finite hm
  obtain ⟨hN2, hI2, hV2, hB2⟩ := encNat_finite hn
  simp only [fadd64bits]
  rw [if_neg (by rw [hN1, hN2]; simp), if_neg (by rw [hI1]; simp),
    if_neg (by rw [hI2]; simp), hV1, hV2]
  have hS : (m : Int) * 2 ^ 1074 + (n : Int) * 2 ^ 1074 =
      ((m + n : Nat) : Int) * 2 ^ 1074 := by
    push_cast
    ring
  rw [hS]
  have hne0 : ¬ ((m + n : Nat) : Int) * 2 ^ 1074 = 0 := by
    apply mul_ne_zero
    · exact Nat.cast_ne_zero.mpr (by omega)
    · positivity
  have hneg : ¬ ((m + n : Nat) : Int) * 2 ^ 1074 < 0 := by
    rw [not_lt]
    positivity
  rw [if_neg hne0, if_neg hneg]
  have hcast : ((m + n : Nat) : Int) * 2 ^ 1074 =
      (((m + n) * 2 ^ 1074 : Nat) : Int) := by
    push_cast
    ring
  rw [hcast, Int.natAbs_ofNat, zero_add, roundMag_exact hpos hsum]

/-- Adding the double `1.0` to the double `n` is exact below `2^53`. -/
theorem fadd64_encNat_one {n : Nat} (h : n < 2 ^ 53) :
    fadd64 (encNat n) (encNat 1) = encNat (n + 1) := by
  apply Float64.val_inj
  show fadd64bits (encNat n).bits64.val (encNat 1).bits64.val % W =
    (encNat (n + 1)).bits64.val
  rw [encNat_val (le_of_lt h), encNat_val (by norm_num),
    fadd64bits_encNat_step (le_of_lt h) (by norm_num) (by omega) (by omega)]
  rfl

/-- Iterated `Add (encNat 1)` on the cas2.go variant counts up exactly
while the total stays within `2^53`. -/
theorem cas2AddN_encNat (k : Nat) : ∀ n : Nat, n + k ≤ 2 ^ 53 →
    cas2AddN (encNat 1) ⟨(encNat n).bits64⟩ k = ⟨(encNat (n + k)).bits64⟩ := by
  induction k with
  | zero => intro n _; rfl
  | succ k ih =>
    intro n h
    have hstep : (atomicFloatCAS2.Add ⟨(encNat n).bits64⟩ (encNat 1)).2 =
        (⟨(encNat (n + 1)).bits64⟩ : atomicFloatCAS2) := by
      show (⟨Float64bits (fadd64 (Float64frombits (encNat n).bits64) (encNat 1))⟩ :
          atomicFloatCAS2) = _
      rw [show Float64frombits (encNat n).bits64 = encNat n from rfl,
        fadd64_encNat_one (by omega)]
      rfl
    show cas2AddN (encNat 1) (atomicFloatCAS2.Add ⟨(encNat n).bits64⟩ (encNat 1)).2 k = _
    rw [hstep, ih (n + 1) (by omega), show n + 1 + k = n + (k + 1) by omega]

/-- Iterated `Add (encNat 1)` on the mutex variant counts up exactly
while the total stays within `2^53`. -/
theorem mutexAddN_encNat (k : Nat) : ∀ n : Nat, n + k ≤ 2 ^ 53 →
    mutexAddN (encNat 1) ⟨encNat n⟩ k = ⟨encNat (n + k)⟩ := by
  induction k with
  | zero => intro n _; rfl
  | succ k ih =>
    intro n h
    have hstep : (atomicFloatMutex.Add ⟨encNat n⟩ (encNat 1)).2 =
        (⟨encNat (n + 1)⟩ : atomicFloatMutex) := by
      show (⟨fadd64 (encNat n) (encNat 1)⟩ : atomicFloatMutex) = _
      rw [fadd64_encNat_one (by omega)]
    show mutexAddN (encNat 1) (atomicFloatMutex.Add ⟨encNat n⟩ (encNat 1)).2 k = _
    rw [hstep, ih (n + 1) (by omega), show n + 1 + k = n + (k + 1) by omega]

/-- C3 (amended): accumulation is exact while the count stays within the
53-bit significand range: starting from 0.0, `A*C` sequential calls of
`Add(1.0)` end with `Load` equal to the double `A*C` whenever
`A*C ≤ 2^53`, in both the bitwise and the locking variant (in particular
for the spec scenario A = 4, C = 500, total 2000).  For counts above
`2^53`, exactness fails even when `A*C` itself is representable — see the
counterexample. -/
theorem accumulate_exact (A C : Nat) (h : A * C ≤ 2 ^ 53) :
    (cas2AddN (encNat 1) (NewAtomicFloatCAS2 (encNat 0)) (A * C)).Load =
      encNat (A * C) ∧
    (mutexAddN (encNat 1) (NewAtomicFloatMutex (encNat 0)) (A * C)).Load =
      encNat (A * C) := by
  constructor
  · have hrun := cas2AddN_encNat (A * C) 0 (by omega)
    rw [Nat.zero_add] at hrun
    show (cas2AddN (encNat 1) ⟨(encNat 0).bits64⟩ (A * C)).Load = encNat (A * C)
    rw [hrun]
    rfl
  · have hrun := mutexAddN_encNat (A * C) 0 (by omega)
    rw [Nat.zero_add] at hrun
    show (mutexAddN (encNat 1) ⟨encNat 0⟩ (A * C)).Load = encNat (A * C)
    rw [hrun]
    rfl

/-- Witness for C3 (amended) at the spec scenario: 4 adders × 500 calls,
2000 total additions of 1.0. -/
theorem accumulate_exact_witness :
    4 * 500 ≤ 2 ^ 53 ∧
    (cas2AddN (encNat 1) (NewAtomicFloatCAS2 (encNat 0)) (4 * 500)).Load =
      encNat (4 * 500) ∧
    (mutexAddN (encNat 1) (NewAtomicFloatMutex (encNat 0)) (4 * 500)).Load =
      encNat (4 * 500) :=
  ⟨by norm_num, (accumulate_exact 4 500 (by norm_num)).1,
    (accumulate_exact 4 500 (by norm_num)).2⟩

set_option maxRecDepth 8000 in
theorem roundMag_tie : roundMag ((2 ^ 53 + 1) * 2 ^ 1074) = 1076 * 2 ^ 52 := by
  have hA : ¬ (2 ^ 53 + 1) * 2 ^ 1074 < 2 ^ 53 := by
    push_neg
    calc (2:Nat) ^ 53 ≤ 2 ^ 53 + 1 := by omega
      _ ≤ (2 ^ 53 + 1) * 2 ^ 1074 := Nat.le_mul_of_pos_right _ (by positivity)
  have hlog : Nat.log2 ((2 ^ 53 + 1) * 2 ^ 1074) = 1127 := by
    apply log2_eq_of
    · calc (2:Nat) ^ 1127 = 2 ^ 53 * 2 ^ 1074 := by rw [← pow_add]
        _ ≤ (2 ^ 53 + 1) * 2 ^ 1074 := Nat.mul_le_mul_right _ (by omega)
    · have hlt : (2:Nat) ^ 53 + 1 < 2 ^ 54 := by
        have h54 : (2:Nat) ^ 53 < 2 ^ 54 := Nat.pow_lt_pow_right (by norm_num) (by norm_num)
        omega
      calc (2 ^ 53 + 1) * 2 ^ 1074 < 2 ^ 54 * 2 ^ 1074 :=
            Nat.mul_lt_mul_of_lt_of_le hlt (le_refl _) (by positivity)
        _ = 2 ^ (1127 + 1) := by rw [← pow_add]
  simp only [roundMag, if_neg hA, hlog]
  have hsplit : (2 ^ 53 + 1) * 2 ^ 1074 = 2 ^ 1075 * 2 ^ 52 + 2 ^ 1074 := by
    ring_nf
  have e1 : (1127:Nat) - 52 = 1075 := by norm_num
  rw [e1, hsplit]
  rw [Nat.mul_add_div (by positivity), Nat.mul_add_mod]
  rw [Nat.div_eq_of_lt (Nat.pow_lt_pow_right (by norm_num) (by norm_num)),
    Nat.mod_eq_of_lt (Nat.pow_lt_pow_right (by norm_num) (by norm_num))]
  norm_num

set_option maxRecDepth 8000 in
theorem fadd64bits_sticky :
    fadd64bits (encNatBits (2 ^ 53)) (encNatBits 1) = encNatBits (2 ^ 53) := by
  obtain ⟨hN1, hI1, hV1, hB1⟩ := encNat_finite (le_refl (2 ^ 53))
  obtain ⟨hN2, hI2, hV2, hB2⟩ := encNat_finite (show (1:Nat) ≤ 2 ^ 53 by norm_num)
  simp only [fadd64bits]
  rw [if_neg (by rw [hN1, hN2]; simp), if_neg (by rw [hI1]; simp),
    if_neg (by rw [hI2]; simp), hV1, hV2]
  have hS : ((2 ^ 53 : Nat) : Int) * 2 ^ 1074 + ((1 : Nat) : Int) * 2 ^ 1074 =
      (((2 ^ 53 + 1) * 2 ^ 1074 : Nat) : Int) := by
    push_cast
    ring
  rw [hS]
  rw [if_neg (by exact Nat.cast_ne_zero.mpr (by positivity)),
    if_neg (by rw [not_lt]; positivity), Int.natAbs_ofNat, zero_add,
    roundMag_tie, encNatBits_pow53]

/-- Unfolded value of `fadd64` (stated once, at symbolic arguments). -/
theorem fadd64_val (x y : Float64) :
    (fadd64 x y).bits64.val = fadd64bits x.bits64.val y.bits64.val % W := rfl

theorem fadd64_sticky : fadd64 (encNat (2 ^ 53)) (encNat 1) = encNat (2 ^ 53) := by
  apply Float64.val_inj
  rw [fadd64_val, encNat_val (le_refl _), encNat_val (by norm_num), fadd64bits_sticky]
  have hb := (encNat_finite (le_refl (2 ^ 53))).2.2.2
  have hW : W = 2 ^ 64 := rfl
  exact Nat.mod_eq_of_lt (by omega)

theorem cas2AddN_sticky (k : Nat) :
    cas2AddN (encNat 1) ⟨(encNat (2 ^ 53)).bits64⟩ k =
      (⟨(encNat (2 ^ 53)).bits64⟩ : atomicFloatCAS2) := by
  induction k with
  | zero => rfl
  | succ k ih =>
    have hstep : (atomicFloatCAS2.Add ⟨(encNat (2 ^ 53)).bits64⟩ (encNat 1)).2 =
        (⟨(encNat (2 ^ 53)).bits64⟩ : atomicFloatCAS2) := by
      show (⟨Float64bits (fadd64 (Float64frombits (encNat (2 ^ 53)).bits64)
          (encNat 1))⟩ : atomicFloatCAS2) = _
      rw [show Float64frombits (encNat (2 ^ 53)).bits64 = encNat (2 ^ 53) from rfl,
        fadd64_sticky]
      rfl
    show cas2AddN (encNat 1)
      (atomicFloatCAS2.Add ⟨(encNat (2 ^ 53)).bits64⟩ (encNat 1)).2 k = _
    rw [hstep, ih]

theorem mutexAddN_sticky (k : Nat) :
    mutexAddN (encNat 1) ⟨encNat (2 ^ 53)⟩ k =
      (⟨encNat (2 ^ 53)⟩ : atomicFloatMutex) := by
  induction k with
  | zero => rfl
  | succ k ih =>
    have hstep : (atomicFloatMutex.Add ⟨encNat (2 ^ 53)⟩ (encNat 1)).2 =
        (⟨encNat (2 ^ 53)⟩ : atomicFloatMutex) := by
      show (⟨fadd64 (encNat (2 ^ 53)) (encNat 1)⟩ : atomicFloatMutex) = _
      rw [fadd64_sticky]
    show mutexAddN (encNat 1)
      (atomicFloatMutex.Add ⟨encNat (2 ^ 53)⟩ (encNat 1)).2 k = _
    rw [hstep, ih]

theorem cas2AddN_split (delta : Float64) (k m : Nat) : ∀ a : atomicFloatCAS2,
    cas2AddN delta a (m + k) = cas2AddN delta (cas2AddN delta a m) k := by
  induction m with
  | zero =>
    intro a
    rw [Nat.zero_add]
    rfl
  | succ m ih =>
    intro a
    rw [Nat.succ_add]
    show cas2AddN delta (atomicFloatCAS2.Add a delta).2 (m + k) = _
    rw [ih]
    rfl

theorem mutexAddN_split (delta : Float64) (k m : Nat) : ∀ a : atomicFloatMutex,
    mutexAddN delta a (m + k) = mutexAddN delta (mutexAddN delta a m) k := by
  induction m with
  | zero =>
    intro a
    rw [Nat.zero_add]
    rfl
  | succ m ih =>
    intro a
    rw [Nat.succ_add]
    show mutexAddN delta (atomicFloatMutex.Add a delta).2 (m + k) = _
    rw [ih]
    rfl

set_option maxRecDepth 8000 in
theorem encNatBits_two_pow54 : encNatBits (2 * 2 ^ 53) = 1077 * 2 ^ 52 := by
  have h54 : (2:Nat) * 2 ^ 53 = 2 ^ 54 := by norm_num
  have hlog : Nat.log2 (2 ^ 54) = 54 := Nat.log2_two_pow
  rw [h54, encNatBits_ne (by positivity), hlog]
  norm_num

/-- Unfolded value of `encNat` (stated once, at a symbolic argument). -/
theorem encNat_val_raw (n : Nat) : (encNat n).bits64.val = encNatBits n % W := rfl

theorem encNat54_val : (encNat (2 * 2 ^ 53)).bits64.val = 1077 * 2 ^ 52 := by
  rw [encNat_val_raw, encNatBits_two_pow54]
  have hW : W = 2 ^ 64 := rfl
  exact Nat.mod_eq_of_lt (by rw [hW]; norm_num)

set_option maxRecDepth 8000 in
theorem exactRepr_two_pow54 : exactRepr (2 * 2 ^ 53) := by
  unfold exactRepr
  rw [encNat54_val]
  have hsg : signBit (1077 * 2 ^ 52) = 0 := by decide
  have hEx : expField (1077 * 2 ^ 52) = 1077 := by decide
  have hFr : fracField (1077 * 2 ^ 52) = 0 := by decide
  unfold sval magScaled
  rw [hsg, hEx, hFr, if_neg (by omega), if_neg (by omega)]
  push_cast
  norm_num

theorem accumulate_claim_counterexample :
    exactRepr (2 * 2 ^ 53) ∧
    (cas2AddN (encNat 1) (NewAtomicFloatCAS2 (encNat 0)) (2 * 2 ^ 53)).Load ≠
      encNat (2 * 2 ^ 53) ∧
    (mutexAddN (encNat 1) (NewAtomicFloatMutex (encNat 0)) (2 * 2 ^ 53)).Load ≠
      encNat (2 * 2 ^ 53) := by
  have hne : encNat (2 ^ 53) ≠ encNat (2 * 2 ^ 53) := by
    intro heq
    have hv := congrArg (fun x : Float64 => x.bits64.val) heq
    simp only at hv
    rw [encNat_val (le_refl _), encNatBits_pow53, encNat54_val] at hv
    norm_num at hv
  refine ⟨exactRepr_two_pow54, ?_, ?_⟩
  · have hfirst := cas2AddN_encNat (2 ^ 53) 0 (by omega)
    rw [Nat.zero_add] at hfirst
    have hrun : cas2AddN (encNat 1) (NewAtomicFloatCAS2 (encNat 0)) (2 * 2 ^ 53) =
        (⟨(encNat (2 ^ 53)).bits64⟩ : atomicFloatCAS2) := by
      rw [show 2 * 2 ^ 53 = 2 ^ 53 + 2 ^ 53 by ring,
        show NewAtomicFloatCAS2 (encNat 0) =
          (⟨(encNat 0).bits64⟩ : atomicFloatCAS2) from rfl,
        cas2AddN_split (encNat 1) (2 ^ 53) (2 ^ 53), hfirst, cas2AddN_sticky]
    rw [hrun]
    exact hne
  · have hfirst := mutexAddN_encNat (2 ^ 53) 0 (by omega)
    rw [Nat.zero_add] at hfirst
    have hrun : mutexAddN (encNat 1) (NewAtomicFloatMutex (encNat 0)) (2 * 2 ^ 53) =
        (⟨encNat (2 ^ 53)⟩ : atomicFloatMutex) := by
      rw [show 2 * 2 ^ 53 = 2 ^ 53 + 2 ^ 53 by ring,
        show NewAtomicFloatMutex (encNat 0) = (⟨encNat 0⟩ : atomicFloatMutex) from rfl,
        mutexAddN_split (encNat 1) (2 ^ 53) (2 ^ 53), hfirst, mutexAddN_sticky]
    rw [hrun]
    exact hne


theorem seqReplay_append (ops : List FOp) (ev1 : List (Nat × Option Float64)) :
    ∀ (b : Fin W) (ev2 : List (Nat × Option Float64)),
    seqReplay ops b (ev1 ++ ev2) =
      (seqReplay ops b ev1).bind fun cell => seqReplay ops cell ev2 := by
  induction ev1 with
  | nil => intro b ev2; rfl
  | cons e ev1 ih =>
    intro b ev2
    obtain ⟨i, r⟩ := e
    simp only [List.cons_append, seqReplay]
    cases hop : ops.get? i with
    | none => rfl
    | some op =>
      by_cases hr : (cas2Step ⟨b⟩ op).1 = r
      · simp only [if_pos hr]
        exact ih _ _
      · simp only [if_neg hr, Option.none_bind]

theorem seqReplay_single {ops : List FOp} {i : Nat} {op : FOp}
    (hop : ops.get? i = some op) (cell : Fin W) {r : Option Float64}
    (hr : (cas2Step ⟨cell⟩ op).1 = r) :
    seqReplay ops cell [(i, r)] = some (cas2Step ⟨cell⟩ op).2.u64 := by
  simp only [seqReplay, hop, if_pos hr]

theorem agreeStart_not_done {op : FOp} {r : Option Float64} :
    ¬ agreeStart op (TCode.done r) := by
  rintro (h | ⟨d, oldBits, rfl, h⟩)
  · cases op <;> simp [FOp.init] at h
  · exact TCode.noConfusion h

theorem agreeStart_load {op : FOp} (h : agreeStart op TCode.loadPending) :
    op = FOp.load := by
  rcases h with heq | ⟨d, oldBits, rfl, heq⟩
  · cases op <;> simp [FOp.init] at heq
    rfl
  · exact TCode.noConfusion heq

theorem agreeStart_store {op : FOp} {v : Float64}
    (h : agreeStart op (TCode.storePending v)) : op = FOp.store v := by
  rcases h with heq | ⟨d, oldBits, rfl, heq⟩
  · cases op <;> simp [FOp.init] at heq
    · rw [heq]
  · exact TCode.noConfusion heq

theorem agreeStart_swap {op : FOp} {v : Float64}
    (h : agreeStart op (TCode.swapPending v)) : op = FOp.swap v := by
  rcases h with heq | ⟨d, oldBits, rfl, heq⟩
  · cases op <;> simp [FOp.init] at heq
    · rw [heq]
  · exact TCode.noConfusion heq

theorem agreeStart_addPending {op : FOp} {d : Float64}
    (h : agreeStart op (TCode.addPending d)) : op = FOp.add d := by
  rcases h with heq | ⟨d', oldBits, rfl, heq⟩
  · cases op <;> simp [FOp.init] at heq
    · rw [heq]
  · exact TCode.noConfusion heq

theorem agreeStart_addLoaded {op : FOp} {d : Float64} {oldBits : Fin W}
    (h : agreeStart op (TCode.addLoaded d oldBits)) : op = FOp.add d := by
  rcases h with heq | ⟨d', oldBits', rfl, heq⟩
  · cases op <;> simp [FOp.init] at heq
  · injection heq with h1 h2
    rw [h1]

/-- Committing a decisive step: thread `j`, still unlinearized, finishes
its call in one atomic step whose return and cell effect match the
sequential execution of its call at the current cell; the call is
appended to the linearization. -/
theorem Inv_commit {ops : List FOp} {v0 : Float64} {c : Config}
    {ev : List (Nat × Option Float64)} (h : Inv ops v0 c ev)
    {j : Nat} {op : FOp} (hop : ops.get? j = some op)
    (hnotin : j ∉ ev.map Prod.fst)
    {r : Option Float64} (hr : (cas2Step ⟨c.cell⟩ op).1 = r) :
    Inv ops v0 ⟨(cas2Step ⟨c.cell⟩ op).2.u64, c.threads.set j (TCode.done r)⟩
      (ev ++ [(j, r)]) := by
  obtain ⟨hlen, hrep, hnd, hlt, hth⟩ := h
  obtain ⟨hjlen, -⟩ := List.get?_eq_some.mp hop
  refine ⟨by simpa using hlen, ?_, ?_, ?_, ?_⟩
  · rw [seqReplay_append, hrep, Option.some_bind]
    exact seqReplay_single hop c.cell hr
  · rw [List.map_append]
    refine List.Nodup.append hnd (List.nodup_singleton _) ?_
    intro a ha hb
    rw [show (([(j, r)] : List (Nat × Option Float64)).map Prod.fst) = [j] from rfl,
      List.mem_singleton] at hb
    exact hnotin (hb ▸ ha)
  · intro e he
    rcases List.mem_append.mp he with h1 | h2
    · exact hlt e h1
    · rw [List.mem_singleton] at h2
      rw [h2]
      exact hjlen
  · intro i opi hopi
    by_cases hij : i = j
    · subst hij
      rw [hop] at hopi
      obtain rfl := Option.some.inj hopi
      refine ⟨TCode.done r, ?_,
        Or.inl ⟨r, rfl, List.mem_append_right _ (List.mem_singleton.mpr rfl)⟩⟩
      rw [List.get?_set_eq_of_lt _ (by omega : i < c.threads.length)]
    · obtain ⟨t, hjt, hcase⟩ := hth i opi hopi
      refine ⟨t, ?_, ?_⟩
      · rw [List.get?_set_ne _ _ (fun heq => hij heq.symm)]
        exact hjt
      · rcases hcase with ⟨r0, ht, hmem⟩ | ⟨hag, hni⟩
        · exact Or.inl ⟨r0, ht, List.mem_append_left _ hmem⟩
        · refine Or.inr ⟨hag, ?_⟩
          rw [List.map_append]
          intro hmem2
          rcases List.mem_append.mp hmem2 with h1 | h2
          · exact hni h1
          · rw [show (([(j, r)] : List (Nat × Option Float64)).map Prod.fst) = [j]
              from rfl, List.mem_singleton] at h2
            exact hij h2

/-- An internal (non-decisive) step of thread `j`: the cell and the
linearization are unchanged, the thread moves to another in-flight
state. -/
theorem Inv_internal {ops : List FOp} {v0 : Float64} {c : Config}
    {ev : List (Nat × Option Float64)} (h : Inv ops v0 c ev)
    {j : Nat} {op : FOp} (hop : ops.get? j = some op)
    (hnotin : j ∉ ev.map Prod.fst) {t' : TCode} (hag' : agreeStart op t') :
    Inv ops v0 ⟨c.cell, c.threads.set j t'⟩ ev := by
  obtain ⟨hlen, hrep, hnd, hlt, hth⟩ := h
  obtain ⟨hjlen, -⟩ := List.get?_eq_some.mp hop
  refine ⟨by simpa using hlen, hrep, hnd, hlt, ?_⟩
  intro i opi hopi
  by_cases hij : i = j
  · subst hij
    rw [hop] at hopi
    obtain rfl := Option.some.inj hopi
    refine ⟨t', ?_, Or.inr ⟨hag', hnotin⟩⟩
    rw [List.get?_set_eq_of_lt _ (by omega : i < c.threads.length)]
  · obtain ⟨t, hjt, hcase⟩ := hth i opi hopi
    refine ⟨t, ?_, hcase⟩
    rw [List.get?_set_ne _ _ (fun heq => hij heq.symm)]
    exact hjt

/-- One scheduled step preserves the invariant, extending the
linearization by at most the stepping thread's own call. -/
theorem stepConfig_inv (ops : List FOp) (v0 : Float64) (c : Config)
    (ev : List (Nat × Option Float64)) (h : Inv ops v0 c ev) (j : Nat) :
    ∃ evNew, Inv ops v0 (stepConfig c j) (ev ++ evNew) ∧
      (evNew.map Prod.fst).Sublist [j] := by
  cases hj : c.threads.get? j with
  | none =>
    refine ⟨[], ?_, by simp⟩
    rw [List.append_nil]
    simp only [stepConfig, hj]
    exact h
  | some t =>
    obtain ⟨hjl, -⟩ := List.get?_eq_some.mp hj
    have hjlen : j < ops.length := h.1 ▸ hjl
    obtain ⟨op, hop⟩ : ∃ op, ops.get? j = some op := by
      cases hops : ops.get? j with
      | none => exact absurd (List.get?_eq_none.mp hops) (by omega)
      | some op => exact ⟨op, rfl⟩
    obtain ⟨t0, hjt0, hcase⟩ := h.2.2.2.2 j op hop
    rw [hj] at hjt0
    obtain rfl := Option.some.inj hjt0
    cases t with
    | done r =>
      refine ⟨[], ?_, by simp⟩
      rw [List.append_nil]
      simp only [stepConfig, hj]
      exact h
    | loadPending =>
      rcases hcase with ⟨r0, ht, -⟩ | ⟨hag, hnotin⟩
      · exact absurd ht (fun hh => TCode.noConfusion hh)
      obtain rfl := agreeStart_load hag
      have hstep : stepConfig c j =
          ⟨(cas2Step ⟨c.cell⟩ FOp.load).2.u64,
            c.threads.set j (TCode.done (some (Float64frombits c.cell)))⟩ := by
        simp only [stepConfig, hj]
        rfl
      rw [hstep]
      exact ⟨[(j, some (Float64frombits c.cell))],
        Inv_commit h hop hnotin rfl, by simp⟩
    | storePending v =>
      rcases hcase with ⟨r0, ht, -⟩ | ⟨hag, hnotin⟩
      · exact absurd ht (fun hh => TCode.noConfusion hh)
      obtain rfl := agreeStart_store hag
      have hstep : stepConfig c j =
          ⟨(cas2Step ⟨c.cell⟩ (FOp.store v)).2.u64,
            c.threads.set j (TCode.done none)⟩ := by
        simp only [stepConfig, hj]
        rfl
      rw [hstep]
      exact ⟨[(j, none)], Inv_commit h hop hnotin rfl, by simp⟩
    | swapPending v =>
      rcases hcase with ⟨r0, ht, -⟩ | ⟨hag, hnotin⟩
      · exact absurd ht (fun hh => TCode.noConfusion hh)
      obtain rfl := agreeStart_swap hag
      have hstep : stepConfig c j =
          ⟨(cas2Step ⟨c.cell⟩ (FOp.swap v)).2.u64,
            c.threads.set j (TCode.done (some (Float64frombits c.cell)))⟩ := by
        simp only [stepConfig, hj]
        rfl
      rw [hstep]
      exact ⟨[(j, some (Float64frombits c.cell))],
        Inv_commit h hop hnotin rfl, by simp⟩
    | addPending d =>
      rcases hcase with ⟨r0, ht, -⟩ | ⟨hag, hnotin⟩
      · exact absurd ht (fun hh => TCode.noConfusion hh)
      obtain rfl := agreeStart_addPending hag
      have hstep : stepConfig c j =
          ⟨c.cell, c.threads.set j (TCode.addLoaded d c.cell)⟩ := by
        simp only [stepConfig, hj]
        rfl
      rw [hstep]
      refine ⟨[], ?_, by simp⟩
      rw [List.append_nil]
      exact Inv_internal h hop hnotin (Or.inr ⟨d, c.cell, rfl, rfl⟩)
    | addLoaded d oldBits =>
      rcases hcase with ⟨r0, ht, -⟩ | ⟨hag, hnotin⟩
      · exact absurd ht (fun hh => TCode.noConfusion hh)
      obtain rfl := agreeStart_addLoaded hag
      by_cases hcell : c.cell = oldBits
      · have hstep : stepConfig c j =
            ⟨(cas2Step ⟨c.cell⟩ (FOp.add d)).2.u64,
              c.threads.set j
                (TCode.done (some (fadd64 (Float64frombits oldBits) d)))⟩ := by
          simp only [stepConfig, hj, stepThread]
          rw [if_pos hcell, hcell]
          rfl
        rw [hstep]
        refine ⟨[(j, some (fadd64 (Float64frombits oldBits) d))],
          Inv_commit h hop hnotin ?_, by simp⟩
        rw [hcell]
        rfl
      · have hstep : stepConfig c j =
            ⟨c.cell, c.threads.set j (TCode.addPending d)⟩ := by
          simp only [stepConfig, hj, stepThread]
          rw [if_neg hcell]
        rw [hstep]
        refine ⟨[], ?_, by simp⟩
        rw [List.append_nil]
        exact Inv_internal h hop hnotin (Or.inl rfl)

/-- Running any schedule preserves the invariant; the decisive steps
recorded form a subsequence of the schedule. -/
theorem execConfig_inv (ops : List FOp) (v0 : Float64) (sched : List Nat) :
    ∀ (c : Config) (ev : List (Nat × Option Float64)), Inv ops v0 c ev →
    ∃ evNew, Inv ops v0 (execConfig c sched) (ev ++ evNew) ∧
      (evNew.map Prod.fst).Sublist sched := by
  induction sched with
  | nil =>
    intro c ev h
    exact ⟨[], by simpa using h, by simp⟩
  | cons j js ih =>
    intro c ev h
    obtain ⟨e1, h1, hs1⟩ := stepConfig_inv ops v0 c ev h j
    obtain ⟨e2, h2, hs2⟩ := ih _ _ h1
    refine ⟨e1 ++ e2, ?_, ?_⟩
    · rw [← List.append_assoc]
      exact h2
    · rw [List.map_append]
      exact hs1.append hs2

/-- The initial configuration satisfies the invariant with the empty
linearization. -/
theorem Inv_init (ops : List FOp) (v0 : Float64) :
    Inv ops v0 (initConfig v0 ops) [] := by
  refine ⟨by simp [initConfig], rfl, List.nodup_nil, by simp, ?_⟩
  intro i op hop
  refine ⟨FOp.init op, ?_, Or.inr ⟨Or.inl rfl, by simp⟩⟩
  show (ops.map FOp.init).get? i = some (FOp.init op)
  rw [List.get?_map, hop]
  rfl

/-- C9: the fine-grained interleaved executions of the cas2.go variant are
linearizable.  For any set of calls (one per thread) and any schedule
under which every call completes, there is a linearization `ev` — one
entry per call, in the order of each call's own decisive atomic
instruction within the schedule (hence a subsequence of the schedule,
which makes the order consistent with real-time call/return precedence) —
such that replaying the calls sequentially in that order reproduces every
call's return value and the final cell contents.  In particular every
`Load` (and `Swap`) observes exactly the value of a completed sequential
prefix: never a torn or uncommitted bit pattern. -/
theorem linearizability (ops : List FOp) (v0 : Float64) (sched : List Nat)
    (hdone : ∀ i, i < ops.length → ∃ r,
      (execConfig (initConfig v0 ops) sched).threads.get? i =
        some (TCode.done r)) :
    ∃ ev : List (Nat × Option Float64),
      (ev.map Prod.fst).Perm (List.range ops.length) ∧
      (ev.map Prod.fst).Sublist sched ∧
      seqReplay ops (Float64bits v0) ev =
        some (execConfig (initConfig v0 ops) sched).cell ∧
      ∀ i r, (execConfig (initConfig v0 ops) sched).threads.get? i =
        some (TCode.done r) → (i, r) ∈ ev := by
  obtain ⟨ev, hInv, hsub⟩ :=
    execConfig_inv ops v0 sched (initConfig v0 ops) [] (Inv_init ops v0)
  rw [List.nil_append] at hInv
  obtain ⟨hlen, hrep, hnd, hlt, hth⟩ := hInv
  refine ⟨ev, ?_, hsub, hrep, ?_⟩
  · rw [List.perm_ext_iff_of_nodup hnd (List.nodup_range _)]
    intro a
    constructor
    · intro ha
      obtain ⟨e, he, rfl⟩ := List.mem_map.mp ha
      exact List.mem_range.mpr (hlt e he)
    · intro ha
      have halen := List.mem_range.mp ha
      obtain ⟨op, hop⟩ : ∃ op, ops.get? a = some op := by
        cases hops : ops.get? a with
        | none => exact absurd (List.get?_eq_none.mp hops) (by omega)
        | some op => exact ⟨op, rfl⟩
      obtain ⟨t, hat, hcase⟩ := hth a op hop
      obtain ⟨r, har⟩ := hdone a halen
      rw [har] at hat
      obtain rfl := Option.some.inj hat
      rcases hcase with ⟨r0, ht, hmem⟩ | ⟨hag, -⟩
      · exact List.mem_map.mpr ⟨(a, r0), hmem, rfl⟩
      · exact absurd hag agreeStart_not_done
  · intro i r hir
    have hilen : i < ops.length := by
      obtain ⟨hi, -⟩ := List.get?_eq_some.mp hir
      omega
    obtain ⟨op, hop⟩ : ∃ op, ops.get? i = some op := by
      cases hops : ops.get? i with
      | none => exact absurd (List.get?_eq_none.mp hops) (by omega)
      | some op => exact ⟨op, rfl⟩
    obtain ⟨t, hit, hcase⟩ := hth i op hop
    rw [hir] at hit
    obtain rfl := Option.some.inj hit
    rcases hcase with ⟨r0, ht, hmem⟩ | ⟨hag, -⟩
    · obtain rfl : r = r0 := by injection ht
      exact hmem
    · exact absurd hag agreeStart_not_done

/-- Witness for C9 at a concrete interleaving: thread 0 runs
`Add(+0.0)` and thread 1 runs `Load` on a cell initialised to `+0.0`,
scheduled as [0, 1, 0] — thread 0's load, thread 1's whole `Load`, then
thread 0's successful CAS.  Both calls complete, so a linearization
exists. -/
theorem linearizability_witness :
    (∀ i, i < ([FOp.add (Float64frombits 0), FOp.load]).length → ∃ r,
      (execConfig (initConfig (Float64frombits 0)
          [FOp.add (Float64frombits 0), FOp.load]) [0, 1, 0]).threads.get? i =
        some (TCode.done r)) ∧
    ∃ ev : List (Nat × Option Float64),
      (ev.map Prod.fst).Perm
        (List.range ([FOp.add (Float64frombits 0), FOp.load]).length) ∧
      (ev.map Prod.fst).Sublist [0, 1, 0] ∧
      seqReplay [FOp.add (Float64frombits 0), FOp.load]
          (Float64bits (Float64frombits 0)) ev =
        some (execConfig (initConfig (Float64frombits 0)
          [FOp.add (Float64frombits 0), FOp.load]) [0, 1, 0]).cell ∧
      ∀ i r, (execConfig (initConfig (Float64frombits 0)
          [FOp.add (Float64frombits 0), FOp.load]) [0, 1, 0]).threads.get? i =
        some (TCode.done r) → (i, r) ∈ ev := by
  have hd : ∀ i, i < ([FOp.add (Float64frombits 0), FOp.load]).length → ∃ r,
      (execConfig (initConfig (Float64frombits 0)
          [FOp.add (Float64frombits 0), FOp.load]) [0, 1, 0]).threads.get? i =
        some (TCode.done r) := by
    intro i hi
    match i, hi with
    | 0, _ => exact ⟨some (Float64frombits 0), by decide⟩
    | 1, _ => exact ⟨some (Float64frombits 0), by decide⟩
  exact ⟨hd, linearizability _ _ _ hd⟩

end AtomicFloat
